import Mathlib

/-!
Shallow embedding of the jcodemunch index store
(`src/jcodemunch_mcp/storage/index_store.py`), the ranked scorer
(`CodeIndex._score_symbol` / `CodeIndex.search`), the repo-identifier
resolution shared by the query tools, and the byte-level retrieval path.

Python strings are modelled as lists of Unicode code points (`PyStr`),
bytes as lists of naturals below 256, dicts as association lists with
update-in-place insertion, and SHA-256 as an abstract hash parameter.
-/

set_option maxRecDepth 8192

namespace JCodemunch

/-- A Python string, as its sequence of Unicode code points. -/
abbrev PyStr := List Nat

/-- UTF-8 encoding of a single code point (as `str.encode("utf-8")` does,
for scalar values). -/
def utf8EncodeChar (c : Nat) : List Nat :=
  if c < 0x80 then [c]
  else if c < 0x800 then [0xC0 + c / 0x40, 0x80 + c % 0x40]
  else if c < 0x10000 then
    [0xE0 + c / 0x1000, 0x80 + (c / 0x40) % 0x40, 0x80 + c % 0x40]
  else
    [0xF0 + c / 0x40000, 0x80 + (c / 0x1000) % 0x40, 0x80 + (c / 0x40) % 0x40,
     0x80 + c % 0x40]

/-- UTF-8 encoding of a whole string. -/
def utf8Encode (s : PyStr) : List Nat :=
  (s.map utf8EncodeChar).flatten

/-- A Unicode scalar value: a code point that is not a surrogate and is
below 0x110000. Python strings in this code base hold scalar values. -/
def IsScalar (c : Nat) : Prop :=
  c < 0x110000 ∧ ¬ (0xD800 ≤ c ∧ c < 0xE000)

instance (c : Nat) : Decidable (IsScalar c) := by
  unfold IsScalar; infer_instance

/-- UTF-8 decoding with `errors="replace"` (as `bytes.decode("utf-8",
errors="replace")`): well-formed sequences decode to their scalar value,
each maximal ill-formed subpart becomes one U+FFFD. -/
def utf8DecodeReplace : List Nat → PyStr
  | [] => []
  | b :: rest =>
    if b < 0x80 then b :: utf8DecodeReplace rest
    else if b < 0xC2 then 0xFFFD :: utf8DecodeReplace rest
    else if b < 0xE0 then
      match rest with
      | [] => [0xFFFD]
      | b2 :: rest2 =>
        if 0x80 ≤ b2 ∧ b2 < 0xC0 then
          ((b - 0xC0) * 0x40 + (b2 - 0x80)) :: utf8DecodeReplace rest2
        else 0xFFFD :: utf8DecodeReplace (b2 :: rest2)
    else if b < 0xF0 then
      match rest with
      | [] => [0xFFFD]
      | b2 :: rest2 =>
        if (if b = 0xE0 then 0xA0 ≤ b2 ∧ b2 < 0xC0
            else if b = 0xED then 0x80 ≤ b2 ∧ b2 < 0xA0
            else 0x80 ≤ b2 ∧ b2 < 0xC0) then
          match rest2 with
          | [] => [0xFFFD]
          | b3 :: rest3 =>
            if 0x80 ≤ b3 ∧ b3 < 0xC0 then
              ((b - 0xE0) * 0x1000 + (b2 - 0x80) * 0x40 + (b3 - 0x80)) ::
                utf8DecodeReplace rest3
            else 0xFFFD :: utf8DecodeReplace (b3 :: rest3)
        else 0xFFFD :: utf8DecodeReplace (b2 :: rest2)
    else if b < 0xF5 then
      match rest with
      | [] => [0xFFFD]
      | b2 :: rest2 =>
        if (if b = 0xF0 then 0x90 ≤ b2 ∧ b2 < 0xC0
            else if b = 0xF4 then 0x80 ≤ b2 ∧ b2 < 0x90
            else 0x80 ≤ b2 ∧ b2 < 0xC0) then
          match rest2 with
          | [] => [0xFFFD]
          | b3 :: rest3 =>
            if 0x80 ≤ b3 ∧ b3 < 0xC0 then
              match rest3 with
              | [] => [0xFFFD]
              | b4 :: rest4 =>
                if 0x80 ≤ b4 ∧ b4 < 0xC0 then
                  ((b - 0xF0) * 0x40000 + (b2 - 0x80) * 0x1000 +
                    (b3 - 0x80) * 0x40 + (b4 - 0x80)) :: utf8DecodeReplace rest4
                else 0xFFFD :: utf8DecodeReplace (b4 :: rest4)
            else 0xFFFD :: utf8DecodeReplace (b3 :: rest3)
        else 0xFFFD :: utf8DecodeReplace (b2 :: rest2)
    else 0xFFFD :: utf8DecodeReplace rest

example : utf8DecodeReplace (utf8Encode [0x48, 0xE9, 0x20AC, 0x1F600]) =
    [0x48, 0xE9, 0x20AC, 0x1F600] := by decide

example : utf8DecodeReplace [0xC3] = [0xFFFD] := by decide

example : utf8DecodeReplace [0xFF, 0xFE] = [0xFFFD, 0xFFFD] := by decide

/-! ### Python string ordering and `sorted` -/

/-- Lexicographic `≤` on code-point sequences, the order Python uses to
compare strings. -/
def strLe : PyStr → PyStr → Bool
  | [], _ => true
  | _ :: _, [] => false
  | a :: as_, b :: bs => decide (a < b) || (a == b && strLe as_ bs)

/-- Insert into an ascending list, used to model Python `sorted`. -/
def sinsert (x : PyStr) : List PyStr → List PyStr
  | [] => [x]
  | y :: ys => if strLe x y then x :: y :: ys else y :: sinsert x ys

/-- Python `sorted` on a collection of strings (any stable comparison
sort; for the distinct-element collections sorted here the result is
uniquely determined by the order). -/
def sortPy (l : List PyStr) : List PyStr :=
  l.foldr sinsert []

theorem strLe_total (a b : PyStr) : strLe a b = true ∨ strLe b a = true := by
  induction a generalizing b with
  | nil => left; rfl
  | cons x xs ih =>
    cases b with
    | nil => right; rfl
    | cons y ys =>
      rcases Nat.lt_trichotomy x y with h | h | h
      · left; simp [strLe, h]
      · subst h
        rcases ih ys with h2 | h2
        · left; simp [strLe, h2]
        · right; simp [strLe, h2]
      · right; simp [strLe, h]

theorem strLe_trans {a b c : PyStr} (h1 : strLe a b = true)
    (h2 : strLe b c = true) : strLe a c = true := by
  induction a generalizing b c with
  | nil => rfl
  | cons x xs ih =>
    cases b with
    | nil => simp [strLe] at h1
    | cons y ys =>
      cases c with
      | nil => simp [strLe] at h2
      | cons z zs =>
        simp only [strLe, Bool.or_eq_true, Bool.and_eq_true, decide_eq_true_eq,
          beq_iff_eq] at h1 h2 ⊢
        rcases h1 with h1 | ⟨rfl, h1⟩
        · rcases h2 with h2 | ⟨rfl, h2⟩
          · exact Or.inl (h1.trans h2)
          · exact Or.inl h1
        · rcases h2 with h2 | ⟨rfl, h2⟩
          · exact Or.inl h2
          · exact Or.inr ⟨rfl, ih h1 h2⟩

theorem mem_sinsert (a x : PyStr) (l : List PyStr) :
    a ∈ sinsert x l ↔ a = x ∨ a ∈ l := by
  induction l with
  | nil => simp [sinsert]
  | cons y ys ih =>
    by_cases h : strLe x y = true
    · simp [sinsert, h]
    · simp only [sinsert, h]
      simp [ih]
      tauto

theorem mem_sortPy (a : PyStr) (l : List PyStr) :
    a ∈ sortPy l ↔ a ∈ l := by
  induction l with
  | nil => simp [sortPy]
  | cons x xs ih =>
    simp only [sortPy, List.foldr_cons]
    rw [mem_sinsert]
    simp only [sortPy] at ih
    simp [ih]

theorem sorted_sinsert (x : PyStr) (l : List PyStr)
    (h : l.Pairwise (fun a b => strLe a b = true)) :
    (sinsert x l).Pairwise (fun a b => strLe a b = true) := by
  induction l with
  | nil => simp [sinsert]
  | cons y ys ih =>
    rcases List.pairwise_cons.mp h with ⟨hy, hys⟩
    rw [sinsert]
    by_cases hxy : strLe x y = true
    · rw [if_pos hxy]
      refine List.pairwise_cons.mpr ⟨?_, h⟩
      intro b hb
      rcases List.mem_cons.mp hb with rfl | hb
      · exact hxy
      · exact strLe_trans hxy (hy b hb)
    · rw [if_neg hxy]
      refine List.pairwise_cons.mpr ⟨?_, ih hys⟩
      intro b hb
      rw [mem_sinsert] at hb
      rcases hb with rfl | hb
      · rcases strLe_total b y with h1 | h1
        · exact absurd h1 hxy
        · exact h1
      · exact hy b hb

theorem sorted_sortPy (l : List PyStr) :
    (sortPy l).Pairwise (fun a b => strLe a b = true) := by
  induction l with
  | nil => simp [sortPy]
  | cons x xs ih => exact sorted_sinsert x _ ih

/-! ### Dict operations

Python dicts are modelled as association lists: key assignment updates
the first matching entry in place or appends, `pop` removes the entry,
lookup takes the first match. -/

/-- Python dict assignment `d[k] = v`. -/
def dinsert (k : PyStr) (v : α) : List (PyStr × α) → List (PyStr × α)
  | [] => [(k, v)]
  | p :: rest => if p.1 = k then (k, v) :: rest else p :: dinsert k v rest

theorem lookup_cons (k : PyStr) (p : PyStr × α) (rest : List (PyStr × α)) :
    List.lookup k (p :: rest) =
      if k = p.1 then some p.2 else List.lookup k rest := by
  rw [List.lookup]
  by_cases h : k = p.1
  · have hb : (k == p.1) = true := beq_iff_eq.mpr h
    rw [hb, if_pos h]
  · have hb : (k == p.1) = false := beq_eq_false_iff_ne.mpr h
    rw [hb, if_neg h]

theorem lookup_dinsert_self (k : PyStr) (v : α) (d : List (PyStr × α)) :
    List.lookup k (dinsert k v d) = some v := by
  induction d with
  | nil => simp [dinsert, lookup_cons]
  | cons p rest ih =>
    rw [dinsert]
    by_cases h : p.1 = k
    · rw [if_pos h, lookup_cons, if_pos rfl]
    · rw [if_neg h, lookup_cons, if_neg (fun hk => h hk.symm), ih]

theorem lookup_dinsert_ne (k k' : PyStr) (v : α) (d : List (PyStr × α))
    (h : k' ≠ k) : List.lookup k' (dinsert k v d) = List.lookup k' d := by
  induction d with
  | nil =>
    show List.lookup k' [(k, v)] = List.lookup k' []
    rw [lookup_cons, if_neg h]
  | cons p rest ih =>
    rw [dinsert]
    by_cases hp : p.1 = k
    · rw [if_pos hp, lookup_cons, lookup_cons, if_neg h,
        if_neg (fun e => h (e.trans hp))]
    · rw [if_neg hp, lookup_cons, lookup_cons, ih]

theorem lookup_eq_none_iff (k : PyStr) (d : List (PyStr × α)) :
    List.lookup k d = none ↔ k ∉ d.map Prod.fst := by
  induction d with
  | nil => simp [List.lookup]
  | cons p rest ih =>
    rw [lookup_cons]
    by_cases h : k = p.1
    · simp [h]
    · simp [h, ih]

theorem lookup_map_snd (k : PyStr) (g : β → α) (d : List (PyStr × β)) :
    List.lookup k (d.map (fun p => (p.1, g p.2))) =
      (List.lookup k d).map g := by
  induction d with
  | nil => simp [List.lookup]
  | cons p rest ih =>
    rw [List.map_cons, lookup_cons, lookup_cons]
    by_cases h : k = p.1
    · simp [h]
    · simp [h, ih]

theorem lookup_filter_key (k : PyStr) (dl : List PyStr) (d : List (PyStr × α)) :
    List.lookup k (d.filter (fun p => !(dl.contains p.1))) =
      if k ∈ dl then none else List.lookup k d := by
  induction d with
  | nil => simp [List.lookup]
  | cons p rest ih =>
    by_cases hm : p.1 ∈ dl
    · rw [List.filter_cons_of_neg (by simp [hm]), ih]
      by_cases hk : k ∈ dl
      · rw [if_pos hk, if_pos hk]
      · rw [if_neg hk, if_neg hk, lookup_cons,
          if_neg (fun e : k = p.1 => hk (e ▸ hm))]
    · rw [List.filter_cons_of_pos (by simp [hm]), lookup_cons]
      by_cases h : k = p.1
      · rw [if_pos h, if_neg (fun hk : k ∈ dl => hm (h ▸ hk)), lookup_cons,
          if_pos h]
      · rw [if_neg h, ih]
        by_cases hk : k ∈ dl
        · rw [if_pos hk, if_pos hk]
        · rw [if_neg hk, if_neg hk, lookup_cons, if_neg h]

theorem lookup_foldl_dinsert (g : PyStr → α) (raw : List (PyStr × PyStr))
    (d0 : List (PyStr × α)) (k : PyStr) (hnd : (raw.map Prod.fst).Nodup) :
    List.lookup k (raw.foldl (fun d p => dinsert p.1 (g p.2) d) d0) =
      match List.lookup k raw with
      | some v => some (g v)
      | none => List.lookup k d0 := by
  induction raw generalizing d0 with
  | nil => simp [List.lookup]
  | cons p rest ih =>
    rw [List.map_cons, List.nodup_cons] at hnd
    rw [List.foldl_cons, ih _ hnd.2, lookup_cons]
    by_cases h : k = p.1
    · have hnone : List.lookup k rest = none :=
        (lookup_eq_none_iff k rest).mpr (by rw [h]; exact hnd.1)
      rw [hnone, if_pos h]
      show List.lookup k (dinsert p.1 (g p.2) d0) = some (g p.2)
      rw [h, lookup_dinsert_self]
    · rw [if_neg h]
      cases hrest : List.lookup k rest with
      | none =>
        show List.lookup k (dinsert p.1 (g p.2) d0) = List.lookup k d0
        exact lookup_dinsert_ne _ _ _ _ h
      | some v => rfl

/-! ### Data model

`Symbol` embeds the dataclass of `parser/symbols.py`; symbols stored in
a manifest are the dicts produced by `IndexStore._symbol_to_dict`, which
carries exactly the same fields, so one structure serves both. -/

structure Symbol where
  id : PyStr
  file : PyStr
  name : PyStr
  qualified_name : PyStr
  kind : PyStr
  language : PyStr
  signature : PyStr
  docstring : PyStr
  summary : PyStr
  decorators : List PyStr
  keywords : List PyStr
  parent : Option PyStr
  line : Nat
  end_line : Nat
  byte_offset : Nat
  byte_length : Nat
  content_hash : PyStr
  deriving DecidableEq

/-- The in-memory `CodeIndex` dataclass. -/
structure CodeIndex where
  repo : PyStr
  owner : PyStr
  name : PyStr
  indexed_at : PyStr
  source_files : List PyStr
  languages : List (PyStr × Nat)
  symbols : List Symbol
  index_version : Nat
  file_hashes : List (PyStr × PyStr)
  git_head : PyStr
  deriving DecidableEq

/-- The manifest JSON as found on disk: the optional fields
(`index_version`, `file_hashes`, `git_head`) may be absent, which
`load_index` reads back through `dict.get` defaults. -/
structure StoredManifest where
  repo : PyStr
  owner : PyStr
  name : PyStr
  indexed_at : PyStr
  source_files : List PyStr
  languages : List (PyStr × Nat)
  symbols : List Symbol
  index_version : Option Nat
  file_hashes : Option (List (PyStr × PyStr))
  git_head : Option PyStr
  deriving DecidableEq

/-- On-disk state of one repository in an `IndexStore`: the manifest file
(`{owner}-{name}.json`, absent or parsed) and the content-mirror
directory as a map from relative path to raw file bytes. -/
structure RepoStore where
  manifest : Option StoredManifest
  mirror : List (PyStr × List Nat)
  deriving DecidableEq

/-- The `INDEX_VERSION` schema constant. -/
def INDEX_VERSION : Nat := 2

/-- The `_file_hash` helper: SHA-256 hex digest of the UTF-8 encoding of
a content string. SHA-256 itself is the abstract parameter `hash`. -/
def fileHash (hash : List Nat → PyStr) (content : PyStr) : PyStr :=
  hash (utf8Encode content)

/-- Serialization `IndexStore._index_to_dict`: every field is written,
so the stored manifest has all optional fields present. -/
def indexToStored (index : CodeIndex) : StoredManifest :=
  { repo := index.repo
    owner := index.owner
    name := index.name
    indexed_at := index.indexed_at
    source_files := index.source_files
    languages := index.languages
    symbols := index.symbols
    index_version := some index.index_version
    file_hashes := some index.file_hashes
    git_head := some index.git_head }

/-- `IndexStore.load_index`: `None` when the manifest file is missing,
`None` when the stored version (default 1) exceeds `INDEX_VERSION`, else
the reconstructed `CodeIndex` with defaulted optional fields. -/
def load_index (manifest : Option StoredManifest) : Option CodeIndex :=
  match manifest with
  | none => none
  | some data =>
    let stored_version := data.index_version.getD 1
    if stored_version > INDEX_VERSION then none
    else some
      { repo := data.repo
        owner := data.owner
        name := data.name
        indexed_at := data.indexed_at
        source_files := data.source_files
        languages := data.languages
        symbols := data.symbols
        index_version := stored_version
        file_hashes := data.file_hashes.getD []
        git_head := data.git_head.getD [] }

/-- `IndexStore.save_index`: compute file hashes when not provided,
build the `CodeIndex`, write the manifest (temp file + atomic rename),
then write every raw file into the mirror. `indexed_at` stands for
`datetime.now().isoformat()`. Returns the index and the new store
state. -/
def save_index (hash : List Nat → PyStr) (owner name : PyStr)
    (source_files : List PyStr) (symbols : List Symbol)
    (raw_files : List (PyStr × PyStr)) (languages : List (PyStr × Nat))
    (file_hashes : Option (List (PyStr × PyStr))) (git_head : PyStr)
    (indexed_at : PyStr) (store : RepoStore) : CodeIndex × RepoStore :=
  let fh := match file_hashes with
    | some fh => fh
    | none => raw_files.map (fun p => (p.1, fileHash hash p.2))
  let index : CodeIndex :=
    { repo := owner ++ [47] ++ name
      owner := owner
      name := name
      indexed_at := indexed_at
      source_files := source_files
      languages := languages
      symbols := symbols
      index_version := INDEX_VERSION
      file_hashes := fh
      git_head := git_head }
  let mirror := raw_files.foldl
    (fun m p => dinsert p.1 (utf8Encode p.2) m) store.mirror
  (index, { manifest := some (indexToStored index), mirror := mirror })

/-- `CodeIndex.get_symbol`: first symbol whose `id` equals the query. -/
def CodeIndex.get_symbol (index : CodeIndex) (symbol_id : PyStr) :
    Option Symbol :=
  index.symbols.find? (fun s => s.id == symbol_id)

/-- `IndexStore.get_symbol_content`: load the manifest, look the symbol
up by id, read `byte_length` bytes of the mirrored file starting at
`byte_offset` (seek past end reads nothing), decode UTF-8 with
replacement. `None` on any missing piece. -/
def get_symbol_content (store : RepoStore) (symbol_id : PyStr) :
    Option PyStr :=
  match load_index store.manifest with
  | none => none
  | some index =>
    match index.get_symbol symbol_id with
    | none => none
    | some symbol =>
      match List.lookup symbol.file store.mirror with
      | none => none
      | some bytes =>
        some (utf8DecodeReplace
          ((bytes.drop symbol.byte_offset).take symbol.byte_length))

/-- `IndexStore.detect_changes`: with no loadable prior index everything
is new; otherwise compare stored hashes against hashes of the current
contents. Python set subtraction and intersection are modelled by
filters over the key lists (the claims about the result are
membership-based, so the arbitrary set iteration order is immaterial). -/
def detect_changes (hash : List Nat → PyStr) (store : RepoStore)
    (current_files : List (PyStr × PyStr)) :
    List PyStr × List PyStr × List PyStr :=
  match load_index store.manifest with
  | none => ([], current_files.map Prod.fst, [])
  | some index =>
    let old_hashes := index.file_hashes
    let current_hashes :=
      current_files.map (fun p => (p.1, fileHash hash p.2))
    let old_keys := old_hashes.map Prod.fst
    let new_keys := current_hashes.map Prod.fst
    let new_files := new_keys.filter (fun k => !(old_keys.contains k))
    let deleted_files := old_keys.filter (fun k => !(new_keys.contains k))
    let changed_files := new_keys.filter (fun k =>
      old_keys.contains k &&
        !(List.lookup k old_hashes == List.lookup k current_hashes))
    (changed_files, new_files, deleted_files)

/-- `IndexStore.incremental_save`: `None` without a loadable prior
index; otherwise drop the symbols of changed and deleted files, append
the new symbols, update the source-file set and hash map, write the
manifest, remove deleted mirror files and write the new raw contents. -/
def incremental_save (hash : List Nat → PyStr) (owner name : PyStr)
    (changed_files new_files deleted_files : List PyStr)
    (new_symbols : List Symbol) (raw_files : List (PyStr × PyStr))
    (languages : List (PyStr × Nat)) (git_head : PyStr)
    (indexed_at : PyStr) (store : RepoStore) :
    Option (CodeIndex × RepoStore) :=
  match load_index store.manifest with
  | none => none
  | some index =>
    let files_to_remove := deleted_files ++ changed_files
    let kept_symbols := index.symbols.filter
      (fun s => !(files_to_remove.contains s.file))
    let all_symbols := kept_symbols ++ new_symbols
    let old_files0 := index.source_files.dedup
    let old_files1 := old_files0.filter (fun f => !(deleted_files.contains f))
    let old_files2 := new_files.foldl
      (fun acc f => if f ∈ acc then acc else acc ++ [f]) old_files1
    let old_files3 := changed_files.foldl
      (fun acc f => if f ∈ acc then acc else acc ++ [f]) old_files2
    let file_hashes1 := index.file_hashes.filter
      (fun p => !(deleted_files.contains p.1))
    let file_hashes2 := raw_files.foldl
      (fun d p => dinsert p.1 (fileHash hash p.2) d) file_hashes1
    let updated : CodeIndex :=
      { repo := owner ++ [47] ++ name
        owner := owner
        name := name
        indexed_at := indexed_at
        source_files := sortPy old_files3
        languages := languages
        symbols := all_symbols
        index_version := INDEX_VERSION
        file_hashes := file_hashes2
        git_head := git_head }
    let mirror1 := store.mirror.filter
      (fun p => !(deleted_files.contains p.1))
    let mirror2 := raw_files.foldl
      (fun m p => dinsert p.1 (utf8Encode p.2) m) mirror1
    some (updated, { manifest := some (indexToStored updated), mirror := mirror2 })

/-! ### I/O order of the save paths -/

/-- One file-system side effect of `save_index` / `incremental_save`. -/
inductive FsEvent where
  | writeTmp : FsEvent
  | renameManifest : FsEvent
  | mirrorUnlink : PyStr → FsEvent
  | mirrorWrite : PyStr → FsEvent
  deriving DecidableEq

/-- File-system events of one `save_index` call, in program order: the
temp-manifest write and atomic rename (lines 204-207) come first, then
the mirror file writes (lines 213-217). -/
def save_index_trace (raw_files : List (PyStr × PyStr)) : List FsEvent :=
  FsEvent.writeTmp :: FsEvent.renameManifest ::
    raw_files.map (fun p => FsEvent.mirrorWrite p.1)

/-- File-system events of one `incremental_save` call that found a prior
index, in program order: temp write and rename (lines 384-386), unlinks
of deleted files present in the mirror (lines 393-396), then the mirror
writes (lines 399-403). -/
def incremental_save_trace (deleted_files : List PyStr)
    (raw_files : List (PyStr × PyStr)) (store : RepoStore) : List FsEvent :=
  FsEvent.writeTmp :: FsEvent.renameManifest ::
    ((deleted_files.filter
      (fun f => (store.mirror.map Prod.fst).contains f)).map
      FsEvent.mirrorUnlink ++
    raw_files.map (fun p => FsEvent.mirrorWrite p.1))

/-! ### Repo-identifier resolution of the query tools

`get_symbol._parse_repo`, and the identical inline blocks of
`search_symbols` and `search_text`: an argument containing `/` is split
at the first `/`; a bare name is resolved by scanning the store and
taking the FIRST listed repository whose label ends with `/<name>`. -/

/-- One entry of `IndexStore.list_repos` (only the `repo` label is
consulted by the resolution logic). -/
structure RepoEntry where
  repo : PyStr
  deriving DecidableEq

/-- Python `s.split("/", 1)` for a string: the part before the first
`/` (code point 47) and the rest. -/
def splitSlash1 (s : PyStr) : PyStr × PyStr :=
  (s.takeWhile (fun c => c ≠ 47), (s.dropWhile (fun c => c ≠ 47)).drop 1)

/-- Resolution result: `none` models the `{"error": ...}` dict. -/
def parseRepo (repo : PyStr) (repos : List RepoEntry) :
    Option (PyStr × PyStr) :=
  if (47 : Nat) ∈ repo then some (splitSlash1 repo)
  else
    let matching := repos.filter
      (fun r => ([47] ++ repo).isSuffixOf r.repo)
    match matching with
    | [] => none
    | m :: _ => some (splitSlash1 m.repo)

/-! ### Ranked scorer and search

`CodeIndex._score_symbol` and `CodeIndex.search`. Python `str.lower` is
the abstract parameter `lower`, applied to whole strings; `fnmatch`
pattern matching is the abstract parameter `matchp`. The query-word set
`set(query_lower.split())` is the deduplicated token list (iteration
order of the Python set does not affect the commutative sums). -/

/-- Whitespace class of Python `str.split()` (ASCII part). -/
def isWsChar (c : Nat) : Bool :=
  c == 32 || c == 9 || c == 10 || c == 13 || c == 11 || c == 12

/-- Python `str.split()` helper: split on runs of whitespace, dropping
empty tokens; `acc` holds the current token reversed. -/
def splitWsAux : List Nat → List Nat → List PyStr
  | [], acc => if acc.isEmpty then [] else [acc.reverse]
  | c :: rest, acc =>
    if isWsChar c then
      if acc.isEmpty then splitWsAux rest []
      else acc.reverse :: splitWsAux rest []
    else splitWsAux rest (c :: acc)

/-- Python `str.split()` with no separator argument. -/
def pySplit (s : PyStr) : List PyStr :=
  splitWsAux s []

/-- Python substring test `a in b`: contiguous-subsequence test. -/
def substr (a b : PyStr) : Bool :=
  decide (List.IsInfix a b)

/-- `CodeIndex._score_symbol`, with each `for word in query_words` loop
rendered as a fold over the (deduplicated) word list. -/
def score_symbol (lower : PyStr → PyStr) (sym : Symbol)
    (query_lower : PyStr) (query_words : List PyStr) : Nat :=
  let score := 0
  let name_lower := lower sym.name
  let score :=
    if query_lower = name_lower then score + 20
    else if substr query_lower name_lower then score + 10
    else score
  let score := query_words.foldl
    (fun s w => if substr w name_lower then s + 5 else s) score
  let sig_lower := lower sym.signature
  let score := if substr query_lower sig_lower then score + 8 else score
  let score := query_words.foldl
    (fun s w => if substr w sig_lower then s + 2 else s) score
  let summary_lower := lower sym.summary
  let score := if substr query_lower summary_lower then score + 5 else score
  let score := query_words.foldl
    (fun s w => if substr w summary_lower then s + 1 else s) score
  let score := score + (query_words.countP
    (fun w => sym.keywords.contains w)) * 3
  let doc_lower := lower sym.docstring
  let score := query_words.foldl
    (fun s w => if substr w doc_lower then s + 1 else s) score
  score

/-- Stable-descending insertion used to model Python's stable
`list.sort(key=lambda x: x[0], reverse=True)`: a new element goes after
every element with a greater-or-equal key. -/
def sdInsert (x : Nat × Symbol) :
    List (Nat × Symbol) → List (Nat × Symbol)
  | [] => [x]
  | y :: ys => if x.1 ≤ y.1 then y :: sdInsert x ys else x :: y :: ys

/-- Stable sort by score descending. -/
def stableSortDesc (l : List (Nat × Symbol)) : List (Nat × Symbol) :=
  l.foldl (fun acc x => sdInsert x acc) []

/-- `CodeIndex.search`: filter by kind and file pattern, score, keep
strictly positive scores, stable-sort descending, return the symbols. -/
def search (lower : PyStr → PyStr) (matchp : PyStr → PyStr → Bool)
    (symbols : List Symbol) (query : PyStr) (kind : Option PyStr)
    (file_pattern : Option PyStr) : List Symbol :=
  let query_lower := lower query
  let query_words := (pySplit query_lower).dedup
  let passes := fun (sym : Symbol) =>
    (match kind with
     | none => true
     | some k => sym.kind == k) &&
    (match file_pattern with
     | none => true
     | some pat => matchp sym.file pat)
  let scored := ((symbols.filter passes).map
    (fun sym => (score_symbol lower sym query_lower query_words, sym))).filter
    (fun x => 0 < x.1)
  (stableSortDesc scored).map Prod.snd

/-! ### Generic helper lemmas -/

theorem load_indexToStored (idx : CodeIndex) (h : idx.index_version ≤ INDEX_VERSION) :
    load_index (some (indexToStored idx)) = some idx := by
  rw [load_index]
  simp only [indexToStored, Option.getD_some]
  rw [if_neg (by omega)]

theorem find_id_unique (l : List Symbol) (s : Symbol) (h1 : s ∈ l)
    (h2 : ∀ t ∈ l, t.id = s.id → t = s) :
    l.find? (fun t => t.id == s.id) = some s := by
  induction l with
  | nil => cases h1
  | cons t l ih =>
    by_cases ht : t.id = s.id
    · have : t = s := h2 t (List.mem_cons_self t l) ht
      subst this
      rw [List.find?_cons_of_pos _ (by simp)]
    · rw [List.find?_cons_of_neg _ (by simp [ht])]
      rcases List.mem_cons.mp h1 with rfl | h1
      · exact absurd rfl ht
      · exact ih h1 (fun u hu => h2 u (List.mem_cons_of_mem t hu))

/-- Claim C6: `load_index` returns `None` on a missing manifest and on a
stored `index_version` greater than the schema constant 2, and otherwise
reconstructs the index with `file_hashes` defaulting to the empty map
and `git_head` defaulting to the empty string. -/
theorem load_index_spec :
    load_index none = none ∧
    INDEX_VERSION = 2 ∧
    (∀ d : StoredManifest, d.index_version.getD 1 > INDEX_VERSION →
      load_index (some d) = none) ∧
    (∀ d : StoredManifest, d.index_version.getD 1 ≤ INDEX_VERSION →
      load_index (some d) = some
        { repo := d.repo
          owner := d.owner
          name := d.name
          indexed_at := d.indexed_at
          source_files := d.source_files
          languages := d.languages
          symbols := d.symbols
          index_version := d.index_version.getD 1
          file_hashes := d.file_hashes.getD []
          git_head := d.git_head.getD [] }) := by
  refine ⟨rfl, rfl, ?_, ?_⟩
  · intro d h
    rw [load_index, if_pos h]
  · intro d h
    rw [load_index, if_neg (by omega)]

/-- Witness for C6 at concrete manifests: a future-versioned manifest
loads as missing, a current one reconstructs with defaults. -/
theorem load_index_spec_witness :
    load_index (some ⟨[], [], [], [], [], [], [], some 102, none, none⟩) = none ∧
    load_index (some ⟨[], [], [], [], [], [], [], none, none, none⟩) =
      some ⟨[], [], [], [], [], [], [], 1, [], []⟩ := by
  constructor
  · exact load_index_spec.2.2.1 _ (by decide)
  · exact load_index_spec.2.2.2 _ (by decide)

/-- Claim C10: when the manifest loads, the symbol id resolves and the
mirrored file exists, `get_symbol_content` returns the
UTF-8-with-replacement decoding of exactly the bytes that exist in
`[byte_offset, byte_offset + byte_length)` of the mirrored file — the
empty string when `byte_offset` is at or past end of file — and `None`
arises exactly from a missing manifest, unknown symbol id, or missing
mirrored file. -/
theorem get_symbol_content_total (store : RepoStore) (sid : PyStr) :
    (∀ idx sym bytes,
      load_index store.manifest = some idx →
      idx.get_symbol sid = some sym →
      List.lookup sym.file store.mirror = some bytes →
      get_symbol_content store sid =
        some (utf8DecodeReplace
          ((bytes.drop sym.byte_offset).take sym.byte_length)) ∧
      (bytes.length ≤ sym.byte_offset →
        get_symbol_content store sid = some [])) ∧
    (get_symbol_content store sid = none ↔
      load_index store.manifest = none ∨
      (∃ idx, load_index store.manifest = some idx ∧
        idx.get_symbol sid = none) ∨
      (∃ idx sym, load_index store.manifest = some idx ∧
        idx.get_symbol sid = some sym ∧
        List.lookup sym.file store.mirror = none)) := by
  constructor
  · intro idx sym bytes h1 h2 h3
    have hval : get_symbol_content store sid =
        some (utf8DecodeReplace
          ((bytes.drop sym.byte_offset).take sym.byte_length)) := by
      simp only [get_symbol_content, h1, h2, h3]
    refine ⟨hval, ?_⟩
    intro hlen
    rw [hval, List.drop_eq_nil_of_le hlen, List.take_nil]
    rfl
  · cases hL : load_index store.manifest with
    | none =>
      have hval : get_symbol_content store sid = none := by
        simp only [get_symbol_content, hL]
      rw [hval]
      exact iff_of_true rfl (Or.inl rfl)
    | some idx =>
      cases hG : idx.get_symbol sid with
      | none =>
        have hval : get_symbol_content store sid = none := by
          simp only [get_symbol_content, hL, hG]
        rw [hval]
        exact iff_of_true rfl (Or.inr (Or.inl ⟨idx, rfl, hG⟩))
      | some sym =>
        cases hM : List.lookup sym.file store.mirror with
        | none =>
          have hval : get_symbol_content store sid = none := by
            simp only [get_symbol_content, hL, hG, hM]
          rw [hval]
          exact iff_of_true rfl (Or.inr (Or.inr ⟨idx, sym, rfl, hG, hM⟩))
        | some bytes =>
          have hval : get_symbol_content store sid =
              some (utf8DecodeReplace
                ((bytes.drop sym.byte_offset).take sym.byte_length)) := by
            simp only [get_symbol_content, hL, hG, hM]
          rw [hval]
          refine iff_of_false (by simp) ?_
          rintro (h | ⟨idx', h, hG'⟩ | ⟨idx', sym', h, hG', hM'⟩)
          · simp at h
          · injection h with e
            subst e
            rw [hG] at hG'
            simp at hG'
          · injection h with e
            subst e
            rw [hG] at hG'
            injection hG' with e2
            subst e2
            rw [hM] at hM'
            simp at hM'

/-- Witness for C10: a symbol whose byte range starts past end of the
mirrored file retrieves the empty string. -/
theorem get_symbol_content_total_witness :
    get_symbol_content
      ⟨some ⟨[], [], [], [], [], [],
        [⟨[105], [102], [], [], [], [], [], [], [], [], [], none, 1, 1,
          9, 4, []⟩], some 2, some [], some []⟩,
       [([102], [104, 105])]⟩ [105] = some [] :=
  ((get_symbol_content_total
      ⟨some ⟨[], [], [], [], [], [],
        [⟨[105], [102], [], [], [], [], [], [], [], [], [], none, 1, 1,
          9, 4, []⟩], some 2, some [], some []⟩,
       [([102], [104, 105])]⟩ [105]).1
    ⟨[], [], [], [], [], [],
      [⟨[105], [102], [], [], [], [], [], [], [], [], [], none, 1, 1,
        9, 4, []⟩], 2, [], []⟩
    ⟨[105], [102], [], [], [], [], [], [], [], [], [], none, 1, 1,
      9, 4, []⟩
    [104, 105] (by decide) (by decide) (by decide)).2 (by decide)

/-- Claim C8 counterexample: with two indexed repositories `a/x` and
`b/x`, the bare name `x` matches both, yet the resolution succeeds with
the first match instead of returning an error result. -/
theorem parse_repo_counterexample :
    (List.filter (fun r => ([47] ++ [120]).isSuffixOf r.repo)
      [(⟨[97, 47, 120]⟩ : RepoEntry), ⟨[98, 47, 120]⟩]).length = 2 ∧
    parseRepo [120] [⟨[97, 47, 120]⟩, ⟨[98, 47, 120]⟩] =
      some ([97], [120]) := by
  constructor
  · decide
  · decide

/-- Claim C8 as amended: for a bare repo name (no `/`), the operation
errors exactly when no indexed repository label ends with `/<name>`;
when one or more match, the first matching repository in listing order
is used. -/
theorem parse_repo_amended (repo : PyStr) (repos : List RepoEntry)
    (h : (47 : Nat) ∉ repo) :
    (repos.filter (fun r => ([47] ++ repo).isSuffixOf r.repo) = [] →
      parseRepo repo repos = none) ∧
    (∀ m rest,
      repos.filter (fun r => ([47] ++ repo).isSuffixOf r.repo) = m :: rest →
      parseRepo repo repos = some (splitSlash1 m.repo)) := by
  constructor
  · intro he
    rw [parseRepo, if_neg h]
    simp only [he]
  · intro m rest he
    rw [parseRepo, if_neg h]
    simp only [he]

/-- Witness for C8 (amended) at a concrete store with a unique match. -/
theorem parse_repo_amended_witness :
    parseRepo [120] [⟨[97, 47, 120]⟩] = some ([97], [120]) :=
  (parse_repo_amended [120] [⟨[97, 47, 120]⟩] (by decide)).2
    ⟨[97, 47, 120]⟩ [] (by decide)

/-- Claim C4 counterexample: in a `save_index` call that writes one
mirror file, the atomic manifest rename (trace index 1) happens strictly
before the mirror write (trace index 2), not after it. -/
theorem save_order_counterexample :
    (save_index_trace [([97], [120])])[1]? = some FsEvent.renameManifest ∧
    (save_index_trace [([97], [120])])[2]? =
      some (FsEvent.mirrorWrite [97]) ∧
    ¬ (2 : Nat) < 1 := by
  refine ⟨by decide, by decide, by omega⟩

/-- Claim C4 as amended: within one `save_index` call and within one
`incremental_save` call, the atomic manifest rename happens strictly
BEFORE every mirror write (and every mirror unlink) of that call. -/
theorem save_order_amended (raw_files : List (PyStr × PyStr))
    (deleted_files : List PyStr) (store : RepoStore) :
    (save_index_trace raw_files)[1]? = some FsEvent.renameManifest ∧
    (∀ i p, (save_index_trace raw_files)[i]? =
        some (FsEvent.mirrorWrite p) → 1 < i) ∧
    (incremental_save_trace deleted_files raw_files store)[1]? =
      some FsEvent.renameManifest ∧
    (∀ i p,
      (incremental_save_trace deleted_files raw_files store)[i]? =
        some (FsEvent.mirrorWrite p) → 1 < i) ∧
    (∀ i p,
      (incremental_save_trace deleted_files raw_files store)[i]? =
        some (FsEvent.mirrorUnlink p) → 1 < i) := by
  refine ⟨by simp [save_index_trace], ?_, by simp [incremental_save_trace],
    ?_, ?_⟩ <;>
  · intro i p h
    match i with
    | 0 => simp [save_index_trace, incremental_save_trace] at h
    | 1 => simp [save_index_trace, incremental_save_trace] at h
    | (n + 2) => omega

/-- Witness for C4 (amended): the rename precedes the concrete mirror
write sitting at index 2. -/
theorem save_order_amended_witness :
    (save_index_trace [([97], [120])])[2]? =
      some (FsEvent.mirrorWrite [97]) ∧ 1 < 2 :=
  ⟨by decide, (save_order_amended [([97], [120])] [] ⟨none, []⟩).2.1
    2 [97] (by decide)⟩

/-- Claim C9 counterexample: `save_index` called with the unsorted file
list `["b", "a"]` writes a manifest whose `source_files` is exactly that
unsorted list. -/
theorem save_sorted_counterexample :
    ((save_index (fun _ => []) [] [] [[98], [97]] [] [] [] none [] []
        ⟨none, []⟩).2.manifest.map StoredManifest.source_files) =
      some [[98], [97]] ∧
    ¬ ((save_index (fun _ => []) [] [] [[98], [97]] [] [] [] none [] []
        ⟨none, []⟩).1.source_files.Pairwise
        (fun a b => strLe a b = true)) := by
  constructor
  · decide
  · decide

/-- Claim C9 as amended: every manifest written by `incremental_save`
has its `source_files` sorted ascending, while `save_index` writes the
caller's `source_files` list exactly as passed (so its manifest is
sorted precisely when the caller's list is). -/
theorem save_sorted_amended (hash : List Nat → PyStr) (owner name : PyStr)
    (changed new_files deleted : List PyStr) (nsyms : List Symbol)
    (raw : List (PyStr × PyStr)) (langs : List (PyStr × Nat))
    (gh ts : PyStr) (store : RepoStore) (sfiles : List PyStr)
    (syms : List Symbol) (fh : Option (List (PyStr × PyStr))) :
    (∀ idx st',
      incremental_save hash owner name changed new_files deleted nsyms raw
        langs gh ts store = some (idx, st') →
      idx.source_files.Pairwise (fun a b => strLe a b = true) ∧
      st'.manifest = some (indexToStored idx)) ∧
    ((save_index hash owner name sfiles syms raw langs fh gh ts
        store).1.source_files = sfiles ∧
     (save_index hash owner name sfiles syms raw langs fh gh ts
        store).2.manifest =
       some (indexToStored
         (save_index hash owner name sfiles syms raw langs fh gh ts
           store).1)) := by
  refine ⟨?_, rfl, rfl⟩
  intro idx st' h
  rw [incremental_save] at h
  cases hL : load_index store.manifest with
  | none => rw [hL] at h; cases h
  | some index =>
    rw [hL] at h
    simp only [Option.some.injEq, Prod.mk.injEq] at h
    obtain ⟨hidx, hst⟩ := h
    subst hidx
    subst hst
    exact ⟨sorted_sortPy _, rfl⟩

/-- Witness for C9 (amended): a concrete `incremental_save` over an
empty prior index produces a sorted (empty) source list. -/
theorem save_sorted_amended_witness :
    (⟨[47], [], [], [], [], [], [], 2, [], []⟩ :
      CodeIndex).source_files.Pairwise (fun a b => strLe a b = true) :=
  ((save_sorted_amended (fun _ => []) [] [] [] [] [] [] [] [] [] []
      ⟨some ⟨[], [], [], [], [], [], [], some 2, some [], some []⟩, []⟩
      [] [] none).1
    ⟨[47], [], [], [], [], [], [], 2, [], []⟩
    ⟨some (indexToStored ⟨[47], [], [], [], [], [], [], 2, [], []⟩), []⟩
    (by decide)).1

theorem map_fst_pairs (f : PyStr → PyStr) (cur : List (PyStr × PyStr)) :
    (cur.map (fun q => (q.1, f q.2))).map Prod.fst = cur.map Prod.fst := by
  induction cur with
  | nil => rfl
  | cons q t ih => simp only [List.map_cons, ih]

theorem mem_filter_not_contains (p : PyStr) (keys olds : List PyStr) :
    p ∈ keys.filter (fun k => !(olds.contains k)) ↔ p ∈ keys ∧ p ∉ olds := by
  simp [List.mem_filter]

theorem mem_filter_changed (p : PyStr) (keys olds : List PyStr)
    (A B : List (PyStr × PyStr)) :
    p ∈ keys.filter (fun k =>
        olds.contains k && !(List.lookup k A == List.lookup k B)) ↔
      p ∈ keys ∧ p ∈ olds ∧ List.lookup p A ≠ List.lookup p B := by
  simp [List.mem_filter, and_assoc]

/-- Claim C5: `detect_changes` returns three pairwise-disjoint lists;
with no loadable prior index, `changed` and `deleted` are empty and
`new` is exactly the keys of `current_files`; otherwise a path is
`changed` iff it is a key of both the stored hash map and
`current_files` with a differing SHA-256, `new` iff only current, and
`deleted` iff only stored. -/
theorem detect_changes_spec (hash : List Nat → PyStr) (store : RepoStore)
    (current_files : List (PyStr × PyStr)) :
    (∀ p, (p ∈ (detect_changes hash store current_files).1 →
        p ∉ (detect_changes hash store current_files).2.1 ∧
        p ∉ (detect_changes hash store current_files).2.2) ∧
      (p ∈ (detect_changes hash store current_files).2.1 →
        p ∉ (detect_changes hash store current_files).2.2)) ∧
    (load_index store.manifest = none →
      (detect_changes hash store current_files).1 = [] ∧
      (detect_changes hash store current_files).2.2 = [] ∧
      (detect_changes hash store current_files).2.1 =
        current_files.map Prod.fst) ∧
    (∀ idx, load_index store.manifest = some idx →
      (∀ p, p ∈ (detect_changes hash store current_files).1 ↔
        p ∈ idx.file_hashes.map Prod.fst ∧
        p ∈ current_files.map Prod.fst ∧
        List.lookup p idx.file_hashes ≠
          List.lookup p (current_files.map
            (fun q => (q.1, fileHash hash q.2)))) ∧
      (∀ p, p ∈ (detect_changes hash store current_files).2.1 ↔
        p ∈ current_files.map Prod.fst ∧
        p ∉ idx.file_hashes.map Prod.fst) ∧
      (∀ p, p ∈ (detect_changes hash store current_files).2.2 ↔
        p ∈ idx.file_hashes.map Prod.fst ∧
        p ∉ current_files.map Prod.fst)) := by
  cases hL : load_index store.manifest with
  | none =>
    refine ⟨?_, ?_, ?_⟩
    · intro p
      simp [detect_changes, hL]
    · intro _
      simp [detect_changes, hL]
    · intro idx h
      simp at h
  | some idx =>
    refine ⟨?_, ?_, ?_⟩
    · intro p
      simp only [detect_changes, hL]
      rw [map_fst_pairs, mem_filter_changed, mem_filter_not_contains,
        mem_filter_not_contains]
      constructor
      · rintro ⟨hmem, hold, _⟩
        exact ⟨fun hn => hn.2 hold, fun hd => hd.2 hmem⟩
      · rintro ⟨_, hno⟩ ⟨hold, _⟩
        exact hno hold
    · intro h
      simp at h
    · intro idx' h
      injection h with e
      subst e
      simp only [detect_changes, hL]
      rw [map_fst_pairs]
      refine ⟨?_, ?_, ?_⟩ <;> intro p
      · rw [mem_filter_changed]
        tauto
      · rw [mem_filter_not_contains]
      · rw [mem_filter_not_contains]

/-- Witness for C5 at a concrete store: under a prior index hashing only
file `a`, the current file `b` is reported as new. -/
theorem detect_changes_spec_witness :
    [98] ∈ (detect_changes (fun _ => [])
      ⟨some ⟨[], [], [], [], [], [], [], some 2, some [([97], [104])],
        some []⟩, []⟩
      [([97], [120]), ([98], [121])]).2.1 :=
  (((detect_changes_spec (fun _ => [])
      ⟨some ⟨[], [], [], [], [], [], [], some 2, some [([97], [104])],
        some []⟩, []⟩
      [([97], [120]), ([98], [121])]).2.2
    ⟨[], [], [], [], [], [], [], 2, [([97], [104])], []⟩
    (by decide)).2.1 [98]).mpr (by decide)

/-! ### Scorer lemmas -/

theorem foldl_add_if (l : List PyStr) (p : PyStr → Bool) (k s : Nat) :
    l.foldl (fun acc w => if p w then acc + k else acc) s =
      s + k * l.countP p := by
  induction l generalizing s with
  | nil => simp
  | cons w ws ih =>
    rw [List.foldl_cons]
    by_cases h : p w = true
    · rw [if_pos h, ih, List.countP_cons_of_pos _ _ h]
      ring
    · rw [if_neg h, ih, List.countP_cons_of_neg _ _ (by simp [h])]

theorem ite_add_right (c : Prop) [Decidable c] (s k : Nat) :
    (if c then s + k else s) = s + (if c then k else 0) := by
  split_ifs <;> omega

/-- Name-match contribution of `_score_symbol` (feature 1). -/
def nameFeature (lower : PyStr → PyStr) (sym : Symbol)
    (query_lower : PyStr) : Nat :=
  if query_lower = lower sym.name then 20
  else if substr query_lower (lower sym.name) then 10
  else 0

/-- Contributions 2-6 of `_score_symbol` (everything except the
name-match feature). -/
def restFeatures (lower : PyStr → PyStr) (sym : Symbol)
    (query_lower : PyStr) (query_words : List PyStr) : Nat :=
  5 * query_words.countP (fun w => substr w (lower sym.name)) +
  (if substr query_lower (lower sym.signature) then 8 else 0) +
  2 * query_words.countP (fun w => substr w (lower sym.signature)) +
  (if substr query_lower (lower sym.summary) then 5 else 0) +
  query_words.countP (fun w => substr w (lower sym.summary)) +
  3 * query_words.countP (fun w => sym.keywords.contains w) +
  query_words.countP (fun w => substr w (lower sym.docstring))

theorem score_symbol_eq_features (lower : PyStr → PyStr) (sym : Symbol)
    (ql : PyStr) (qw : List PyStr) :
    score_symbol lower sym ql qw =
      nameFeature lower sym ql + restFeatures lower sym ql qw := by
  simp only [score_symbol, foldl_add_if, nameFeature, restFeatures]
  rw [ite_add_right (substr ql (lower sym.signature) = true),
    ite_add_right (substr ql (lower sym.summary) = true)]
  by_cases h1 : ql = lower sym.name
  · rw [if_pos h1]
    ring
  · rw [if_neg h1]
    by_cases h2 : substr ql (lower sym.name) = true
    · rw [if_pos h2]
      ring
    · rw [if_neg h2]
      ring

theorem mem_sdInsert (y x : Nat × Symbol) (l : List (Nat × Symbol)) :
    y ∈ sdInsert x l ↔ y = x ∨ y ∈ l := by
  induction l with
  | nil => simp [sdInsert]
  | cons z zs ih =>
    rw [sdInsert]
    by_cases h : x.1 ≤ z.1
    · rw [if_pos h]
      simp only [List.mem_cons, ih]
      tauto
    · rw [if_neg h]
      simp only [List.mem_cons]

theorem sorted_sdInsert (x : Nat × Symbol) (l : List (Nat × Symbol))
    (h : l.Pairwise (fun a b => b.1 ≤ a.1)) :
    (sdInsert x l).Pairwise (fun a b => b.1 ≤ a.1) := by
  induction l with
  | nil => simp [sdInsert]
  | cons z zs ih =>
    rcases List.pairwise_cons.mp h with ⟨hz, hzs⟩
    rw [sdInsert]
    by_cases hxz : x.1 ≤ z.1
    · rw [if_pos hxz]
      refine List.pairwise_cons.mpr ⟨?_, ih hzs⟩
      intro b hb
      rw [mem_sdInsert] at hb
      rcases hb with rfl | hb
      · exact hxz
      · exact hz b hb
    · rw [if_neg hxz]
      refine List.pairwise_cons.mpr ⟨?_, h⟩
      intro b hb
      rcases List.mem_cons.mp hb with rfl | hb
      · omega
      · exact le_trans (hz b hb) (by omega)

theorem filter_sdInsert (x : Nat × Symbol) (l : List (Nat × Symbol))
    (c : Nat) (h : l.Pairwise (fun a b => b.1 ≤ a.1)) :
    (sdInsert x l).filter (fun y => y.1 == c) =
      l.filter (fun y => y.1 == c) ++
        (if x.1 = c then [x] else []) := by
  induction l with
  | nil =>
    rw [sdInsert]
    by_cases hc : x.1 = c
    · simp [hc]
    · simp [hc]
  | cons z zs ih =>
    rcases List.pairwise_cons.mp h with ⟨hz, hzs⟩
    rw [sdInsert]
    by_cases hxz : x.1 ≤ z.1
    · rw [if_pos hxz]
      by_cases hzc : z.1 = c
      · rw [List.filter_cons_of_pos (by simp [hzc]),
          List.filter_cons_of_pos (by simp [hzc]), ih hzs,
          List.cons_append]
      · rw [List.filter_cons_of_neg (by simp [hzc]),
          List.filter_cons_of_neg (by simp [hzc]), ih hzs]
    · rw [if_neg hxz]
      by_cases hc : x.1 = c
      · have hnone : (z :: zs).filter (fun y => y.1 == c) = [] := by
          rw [List.filter_eq_nil_iff]
          intro y hy
          have : y.1 ≤ z.1 := by
            rcases List.mem_cons.mp hy with rfl | hy
            · exact le_refl _
            · exact hz y hy
          simp only [beq_iff_eq]
          omega
        rw [List.filter_cons_of_pos (by simp [hc]), hnone, if_pos hc,
          List.nil_append]
      · rw [List.filter_cons_of_neg (by simp [hc]), if_neg hc,
          List.append_nil]

theorem mem_foldl_sdInsert (y : Nat × Symbol) (l acc : List (Nat × Symbol)) :
    y ∈ l.foldl (fun a x => sdInsert x a) acc ↔ y ∈ acc ∨ y ∈ l := by
  induction l generalizing acc with
  | nil => simp
  | cons x xs ih =>
    rw [List.foldl_cons, ih, mem_sdInsert]
    simp only [List.mem_cons]
    tauto

theorem sorted_foldl_sdInsert (l acc : List (Nat × Symbol))
    (h : acc.Pairwise (fun a b => b.1 ≤ a.1)) :
    (l.foldl (fun a x => sdInsert x a) acc).Pairwise
      (fun a b => b.1 ≤ a.1) := by
  induction l generalizing acc with
  | nil => exact h
  | cons x xs ih =>
    rw [List.foldl_cons]
    exact ih _ (sorted_sdInsert x acc h)

theorem filter_foldl_sdInsert (l acc : List (Nat × Symbol)) (c : Nat)
    (h : acc.Pairwise (fun a b => b.1 ≤ a.1)) :
    (l.foldl (fun a x => sdInsert x a) acc).filter (fun y => y.1 == c) =
      acc.filter (fun y => y.1 == c) ++
        l.filter (fun y => y.1 == c) := by
  induction l generalizing acc with
  | nil => simp
  | cons x xs ih =>
    rw [List.foldl_cons, ih _ (sorted_sdInsert x acc h),
      filter_sdInsert x acc c h]
    by_cases hc : x.1 = c
    · rw [if_pos hc, List.filter_cons_of_pos (by simp [hc]),
        List.append_assoc, List.singleton_append]
    · rw [if_neg hc, List.filter_cons_of_neg (by simp [hc]),
        List.append_nil]

theorem filter_stableSortDesc (l : List (Nat × Symbol)) (c : Nat) :
    (stableSortDesc l).filter (fun y => y.1 == c) =
      l.filter (fun y => y.1 == c) := by
  rw [stableSortDesc, filter_foldl_sdInsert l [] c List.Pairwise.nil]
  rfl

theorem sorted_stableSortDesc (l : List (Nat × Symbol)) :
    (stableSortDesc l).Pairwise (fun a b => b.1 ≤ a.1) :=
  sorted_foldl_sdInsert l [] List.Pairwise.nil

theorem mem_stableSortDesc (y : Nat × Symbol) (l : List (Nat × Symbol)) :
    y ∈ stableSortDesc l ↔ y ∈ l := by
  rw [stableSortDesc, mem_foldl_sdInsert]
  simp

theorem filter_map_comm (f : α → β) (p : β → Bool) (l : List α) :
    (l.map f).filter p = (l.filter (fun a => p (f a))).map f := by
  induction l with
  | nil => rfl
  | cons a t ih =>
    by_cases h : p (f a) = true
    · rw [List.map_cons, List.filter_cons_of_pos h,
        show List.filter (fun a => p (f a)) (a :: t) =
          a :: List.filter (fun a => p (f a)) t from
          List.filter_cons_of_pos h,
        List.map_cons, ih]
    · rw [List.map_cons, List.filter_cons_of_neg (by simp [h]),
        show List.filter (fun a => p (f a)) (a :: t) =
          List.filter (fun a => p (f a)) t from
          List.filter_cons_of_neg (by simp [h]),
        ih]

theorem filter_map_snd_score (L : List (Nat × Symbol)) (g : Symbol → Nat)
    (hL : ∀ y ∈ L, y.1 = g y.2) (c : Nat) :
    (L.map Prod.snd).filter (fun s => g s == c) =
      (L.filter (fun y => y.1 == c)).map Prod.snd := by
  induction L with
  | nil => rfl
  | cons y t ih =>
    have hy : y.1 = g y.2 := hL y (List.mem_cons_self y t)
    have iht := ih (fun z hz => hL z (List.mem_cons_of_mem y hz))
    by_cases hc : g y.2 = c
    · rw [List.map_cons, List.filter_cons_of_pos (by simp [hc]),
        List.filter_cons_of_pos (by simp [hy, hc]), List.map_cons, iht]
    · rw [List.map_cons, List.filter_cons_of_neg (by simp [hc]),
        List.filter_cons_of_neg (by simp [hy, hc]), iht]

theorem map_snd_pairing (g : Symbol → Nat) (l : List Symbol) :
    l.map (Prod.snd ∘ fun s => (g s, s)) = l := by
  induction l with
  | nil => rfl
  | cons a t ih =>
    rw [List.map_cons, ih]
    rfl

/-- Claim C3: every symbol's score is exactly the stated sum of
weighted contributions (computed from the lowercased query `ql` and its
deduplicated whitespace token set `qw`), and `search` returns exactly
the symbols with strictly positive score, in descending score order,
with ties kept in symbol-list (insertion) order: the returned list is
sorted descending and, for every score value, its subsequence at that
score equals the input-order subsequence of positive-scoring symbols. -/
theorem search_scoring_spec (lower : PyStr → PyStr)
    (matchp : PyStr → PyStr → Bool) (symbols : List Symbol)
    (query : PyStr) :
    (∀ sym : Symbol,
      score_symbol lower sym (lower query) ((pySplit (lower query)).dedup) =
        (if lower query = lower sym.name then 20
         else if substr (lower query) (lower sym.name) then 10 else 0) +
        5 * ((pySplit (lower query)).dedup.countP
          (fun w => substr w (lower sym.name))) +
        (if substr (lower query) (lower sym.signature) then 8 else 0) +
        2 * ((pySplit (lower query)).dedup.countP
          (fun w => substr w (lower sym.signature))) +
        (if substr (lower query) (lower sym.summary) then 5 else 0) +
        ((pySplit (lower query)).dedup.countP
          (fun w => substr w (lower sym.summary))) +
        3 * ((pySplit (lower query)).dedup.countP
          (fun w => sym.keywords.contains w)) +
        ((pySplit (lower query)).dedup.countP
          (fun w => substr w (lower sym.docstring)))) ∧
    (∀ s : Symbol, s ∈ search lower matchp symbols query none none ↔
      s ∈ symbols ∧
      0 < score_symbol lower s (lower query)
        ((pySplit (lower query)).dedup)) ∧
    (search lower matchp symbols query none none).Pairwise
      (fun a b =>
        score_symbol lower b (lower query) ((pySplit (lower query)).dedup) ≤
        score_symbol lower a (lower query) ((pySplit (lower query)).dedup)) ∧
    (∀ c : Nat,
      (search lower matchp symbols query none none).filter
        (fun s => score_symbol lower s (lower query)
          ((pySplit (lower query)).dedup) == c) =
      (symbols.filter (fun s => 0 < score_symbol lower s (lower query)
        ((pySplit (lower query)).dedup))).filter
        (fun s => score_symbol lower s (lower query)
          ((pySplit (lower query)).dedup) == c)) := by
  have hform : ∀ sym : Symbol,
      score_symbol lower sym (lower query) ((pySplit (lower query)).dedup) =
        (if lower query = lower sym.name then 20
         else if substr (lower query) (lower sym.name) then 10 else 0) +
        5 * ((pySplit (lower query)).dedup.countP
          (fun w => substr w (lower sym.name))) +
        (if substr (lower query) (lower sym.signature) then 8 else 0) +
        2 * ((pySplit (lower query)).dedup.countP
          (fun w => substr w (lower sym.signature))) +
        (if substr (lower query) (lower sym.summary) then 5 else 0) +
        ((pySplit (lower query)).dedup.countP
          (fun w => substr w (lower sym.summary))) +
        3 * ((pySplit (lower query)).dedup.countP
          (fun w => sym.keywords.contains w)) +
        ((pySplit (lower query)).dedup.countP
          (fun w => substr w (lower sym.docstring))) := by
    intro sym
    rw [score_symbol_eq_features, nameFeature, restFeatures]
    ring
  have hsearch : search lower matchp symbols query none none =
      (stableSortDesc ((symbols.map (fun s =>
        (score_symbol lower s (lower query) ((pySplit (lower query)).dedup),
          s))).filter (fun x => decide (0 < x.1)))).map Prod.snd := by
    simp only [search, Bool.and_self, List.filter_true]
  have hinv : ∀ y ∈ (symbols.map (fun s =>
      (score_symbol lower s (lower query) ((pySplit (lower query)).dedup),
        s))).filter (fun x => decide (0 < x.1)),
      y.1 = score_symbol lower y.2 (lower query)
        ((pySplit (lower query)).dedup) := by
    intro y hy
    rw [List.mem_filter] at hy
    rcases List.mem_map.mp hy.1 with ⟨t, _, he⟩
    rw [← he]
  have hinvS : ∀ y ∈ stableSortDesc ((symbols.map (fun s =>
      (score_symbol lower s (lower query) ((pySplit (lower query)).dedup),
        s))).filter (fun x => decide (0 < x.1))),
      y.1 = score_symbol lower y.2 (lower query)
        ((pySplit (lower query)).dedup) :=
    fun y hy => hinv y ((mem_stableSortDesc _ _).mp hy)
  refine ⟨hform, ?_, ?_, ?_⟩
  · intro s
    rw [hsearch, List.mem_map]
    constructor
    · rintro ⟨y, hy, rfl⟩
      rw [mem_stableSortDesc, List.mem_filter] at hy
      rcases List.mem_map.mp hy.1 with ⟨t, ht, he⟩
      have hpos := hy.2
      rw [← he] at hpos ⊢
      simp only [decide_eq_true_eq] at hpos
      exact ⟨ht, hpos⟩
    · rintro ⟨hs, hpos⟩
      refine ⟨(score_symbol lower s (lower query)
        ((pySplit (lower query)).dedup), s), ?_, rfl⟩
      rw [mem_stableSortDesc, List.mem_filter]
      exact ⟨List.mem_map_of_mem _ hs, by simpa using hpos⟩
  · rw [hsearch, List.pairwise_map]
    refine List.Pairwise.imp_of_mem ?_ (sorted_stableSortDesc _)
    intro a b ha hb hr
    rw [← hinvS a ha, ← hinvS b hb]
    exact hr
  · intro c
    rw [hsearch, filter_map_snd_score _ _ hinvS c, filter_stableSortDesc,
      filter_map_comm, filter_map_comm, List.map_map]
    simp only [Bool.decide_and, Bool.decide_eq_true]
    exact map_snd_pairing _ _

/-- Claim C7: holding all other scoring features constant, an
exact-name match strictly outscores a proper-substring name match,
which strictly outscores a symbol with no name match at all whose hit
is only in the signature. -/
theorem score_monotonicity (lower : PyStr → PyStr) (q : PyStr)
    (s1 s2 s3 : Symbol)
    (h1 : lower q = lower s1.name)
    (h2 : substr (lower q) (lower s2.name) = true)
    (h2ne : lower q ≠ lower s2.name)
    (h3 : substr (lower q) (lower s3.name) = false)
    (_h3sig : substr (lower q) (lower s3.signature) = true)
    (hr12 : restFeatures lower s1 (lower q) ((pySplit (lower q)).dedup) =
      restFeatures lower s2 (lower q) ((pySplit (lower q)).dedup))
    (hr23 : restFeatures lower s2 (lower q) ((pySplit (lower q)).dedup) =
      restFeatures lower s3 (lower q) ((pySplit (lower q)).dedup)) :
    score_symbol lower s2 (lower q) ((pySplit (lower q)).dedup) <
      score_symbol lower s1 (lower q) ((pySplit (lower q)).dedup) ∧
    score_symbol lower s3 (lower q) ((pySplit (lower q)).dedup) <
      score_symbol lower s2 (lower q) ((pySplit (lower q)).dedup) := by
  have e1 : nameFeature lower s1 (lower q) = 20 := by
    rw [nameFeature, if_pos h1]
  have e2 : nameFeature lower s2 (lower q) = 10 := by
    rw [nameFeature, if_neg h2ne, if_pos h2]
  have e3 : nameFeature lower s3 (lower q) = 0 := by
    have hne : lower q ≠ lower s3.name := by
      intro he
      rw [he] at h3
      have : substr (lower s3.name) (lower s3.name) = true := by
        simp [substr, List.infix_refl]
      rw [h3] at this
      cases this
    rw [nameFeature, if_neg hne, if_neg (by rw [h3]; exact Bool.false_ne_true)]
  rw [score_symbol_eq_features, score_symbol_eq_features,
    score_symbol_eq_features, e1, e2, e3, hr12, hr23]
  omega

/-- Witness for C7 at concrete symbols (identity lowercasing, the
two-space query): exact name beats substring name beats
signature-only. -/
theorem score_monotonicity_witness :
    score_symbol (fun s => s) ⟨[], [], [32, 32, 32], [], [], [], [32, 32],
        [], [], [], [], none, 0, 0, 0, 0, []⟩ [32, 32]
      ((pySplit [32, 32]).dedup) <
    score_symbol (fun s => s) ⟨[], [], [32, 32], [], [], [], [32, 32],
        [], [], [], [], none, 0, 0, 0, 0, []⟩ [32, 32]
      ((pySplit [32, 32]).dedup) ∧
    score_symbol (fun s => s) ⟨[], [], [98], [], [], [], [32, 32],
        [], [], [], [], none, 0, 0, 0, 0, []⟩ [32, 32]
      ((pySplit [32, 32]).dedup) <
    score_symbol (fun s => s) ⟨[], [], [32, 32, 32], [], [], [], [32, 32],
        [], [], [], [], none, 0, 0, 0, 0, []⟩ [32, 32]
      ((pySplit [32, 32]).dedup) :=
  score_monotonicity (fun s => s) [32, 32]
    ⟨[], [], [32, 32], [], [], [], [32, 32], [], [], [], [], none, 0, 0,
      0, 0, []⟩
    ⟨[], [], [32, 32, 32], [], [], [], [32, 32], [], [], [], [], none, 0,
      0, 0, 0, []⟩
    ⟨[], [], [98], [], [], [], [32, 32], [], [], [], [], none, 0, 0, 0,
      0, []⟩
    (by decide) (by decide) (by decide) (by decide) (by decide)
    (by decide) (by decide)

/-! ### UTF-8 roundtrip -/

theorem utf8Encode_cons (c : Nat) (s : PyStr) :
    utf8Encode (c :: s) = utf8EncodeChar c ++ utf8Encode s := by
  rw [utf8Encode, utf8Encode, List.map_cons, List.flatten_cons]

theorem decode_encodeChar (c : Nat) (h : IsScalar c) (l : List Nat) :
    utf8DecodeReplace (utf8EncodeChar c ++ l) = c :: utf8DecodeReplace l := by
  obtain ⟨hlt, hsur⟩ := h
  by_cases h1 : c < 0x80
  · have he : utf8EncodeChar c = [c] := by rw [utf8EncodeChar, if_pos h1]
    rw [he, List.cons_append, List.nil_append, utf8DecodeReplace.eq_def]
    simp only []
    rw [if_pos h1]
  · by_cases h2 : c < 0x800
    · have he : utf8EncodeChar c = [0xC0 + c / 0x40, 0x80 + c % 0x40] := by
        rw [utf8EncodeChar, if_neg h1, if_pos h2]
      rw [he]
      simp only [List.cons_append, List.nil_append]
      rw [utf8DecodeReplace.eq_def]
      simp only []
      rw [if_neg (by omega), if_neg (by omega), if_pos (by omega),
        if_pos (by omega)]
      congr 1
      omega
    · by_cases h3 : c < 0x10000
      · have he : utf8EncodeChar c =
            [0xE0 + c / 0x1000, 0x80 + (c / 0x40) % 0x40,
              0x80 + c % 0x40] := by
          rw [utf8EncodeChar, if_neg h1, if_neg h2, if_pos h3]
        rw [he]
        simp only [List.cons_append, List.nil_append]
        rw [utf8DecodeReplace.eq_def]
        simp only []
        rw [if_neg (by omega), if_neg (by omega), if_neg (by omega),
          if_pos (by omega), if_pos (by split_ifs <;> omega),
          if_pos (by omega)]
        congr 1
        omega
      · have he : utf8EncodeChar c =
            [0xF0 + c / 0x40000, 0x80 + (c / 0x1000) % 0x40,
              0x80 + (c / 0x40) % 0x40, 0x80 + c % 0x40] := by
          rw [utf8EncodeChar, if_neg h1, if_neg h2, if_neg h3]
        rw [he]
        simp only [List.cons_append, List.nil_append]
        rw [utf8DecodeReplace.eq_def]
        simp only []
        rw [if_neg (by omega), if_neg (by omega), if_neg (by omega),
          if_neg (by omega), if_pos (by omega),
          if_pos (by split_ifs <;> omega), if_pos (by omega),
          if_pos (by omega)]
        congr 1
        omega

theorem decode_encode (cs : PyStr) (h : ∀ c ∈ cs, IsScalar c) :
    utf8DecodeReplace (utf8Encode cs) = cs := by
  induction cs with
  | nil => rfl
  | cons c cs ih =>
    rw [utf8Encode_cons, decode_encodeChar c (h c (List.mem_cons_self c cs)),
      ih (fun d hd => h d (List.mem_cons_of_mem c hd))]

/-- Claim C1 counterexample: a saved index whose symbol satisfies the
slice invariants (range in bounds, `content_hash` equal to the hash of
the raw slice) but whose one-byte slice cuts the two-byte UTF-8
character `é` in half. Retrieval succeeds, yet the returned string
re-encodes to 3 bytes, not `byte_length = 1`. -/
def c1CexSymbol : Symbol :=
  ⟨[105], [102], [], [], [], [], [], [], [], [], [], none, 0, 0, 0, 1, []⟩

def c1CexSave : CodeIndex × RepoStore :=
  save_index (fun _ => []) [] [] [[102]] [c1CexSymbol] [([102], [233])]
    [] none [] [] ⟨none, []⟩

/-- Claim C1 fails as stated: all of the saved-index conditions hold at
this input, retrieval returns a (replacement-decoded) string, but its
UTF-8 byte length differs from the symbol's `byte_length`. -/
theorem byte_exact_counterexample :
    c1CexSymbol ∈ c1CexSave.1.symbols ∧
    List.lookup c1CexSymbol.file c1CexSave.2.mirror =
      some [0xC3, 0xA9] ∧
    c1CexSymbol.byte_offset + c1CexSymbol.byte_length ≤
      [0xC3, 0xA9].length ∧
    c1CexSymbol.content_hash = (fun _ => ([] : PyStr))
      (([0xC3, 0xA9].drop c1CexSymbol.byte_offset).take
        c1CexSymbol.byte_length) ∧
    get_symbol_content c1CexSave.2 c1CexSymbol.id = some [0xFFFD] ∧
    (utf8Encode [0xFFFD]).length ≠ c1CexSymbol.byte_length := by
  exact ⟨by decide, by decide, by decide, rfl, by decide, by decide⟩

/-- Claim C1 as amended: for a symbol of a saved index with unique id,
existing mirrored file, in-bounds byte range, `content_hash` equal to
the SHA-256 of the raw slice, and a slice that is valid UTF-8 (it
encodes a scalar sequence `cs`), `get_symbol_content` returns exactly
that string, whose UTF-8 re-encoding has length `byte_length` and
re-hashes to `content_hash`. -/
theorem get_symbol_content_byte_exact (hash : List Nat → PyStr)
    (owner name : PyStr) (source_files : List PyStr)
    (symbols : List Symbol) (raw_files : List (PyStr × PyStr))
    (languages : List (PyStr × Nat)) (fh : Option (List (PyStr × PyStr)))
    (git_head indexed_at : PyStr) (store : RepoStore) (s : Symbol)
    (bytes : List Nat) (cs : PyStr)
    (hmem : s ∈ (save_index hash owner name source_files symbols raw_files
      languages fh git_head indexed_at store).1.symbols)
    (huniq : ∀ t ∈ (save_index hash owner name source_files symbols
      raw_files languages fh git_head indexed_at store).1.symbols,
      t.id = s.id → t = s)
    (hbytes : List.lookup s.file (save_index hash owner name source_files
      symbols raw_files languages fh git_head indexed_at store).2.mirror =
      some bytes)
    (hrange : s.byte_offset + s.byte_length ≤ bytes.length)
    (hhash : s.content_hash =
      hash ((bytes.drop s.byte_offset).take s.byte_length))
    (hscalar : ∀ c ∈ cs, IsScalar c)
    (hvalid : utf8Encode cs =
      (bytes.drop s.byte_offset).take s.byte_length) :
    get_symbol_content (save_index hash owner name source_files symbols
      raw_files languages fh git_head indexed_at store).2 s.id =
      some cs ∧
    (utf8Encode cs).length = s.byte_length ∧
    hash (utf8Encode cs) = s.content_hash := by
  have hver : (save_index hash owner name source_files symbols raw_files
      languages fh git_head indexed_at store).1.index_version =
      INDEX_VERSION := rfl
  have hman : (save_index hash owner name source_files symbols raw_files
      languages fh git_head indexed_at store).2.manifest =
      some (indexToStored (save_index hash owner name source_files symbols
        raw_files languages fh git_head indexed_at store).1) := rfl
  have hload : load_index (save_index hash owner name source_files symbols
      raw_files languages fh git_head indexed_at store).2.manifest =
      some (save_index hash owner name source_files symbols raw_files
        languages fh git_head indexed_at store).1 := by
    rw [hman]
    exact load_indexToStored _ (le_of_eq hver)
  have hfind : (save_index hash owner name source_files symbols raw_files
      languages fh git_head indexed_at store).1.get_symbol s.id = some s := by
    rw [CodeIndex.get_symbol]
    exact find_id_unique _ s hmem huniq
  have hget : get_symbol_content (save_index hash owner name source_files
      symbols raw_files languages fh git_head indexed_at store).2 s.id =
      some (utf8DecodeReplace
        ((bytes.drop s.byte_offset).take s.byte_length)) := by
    simp only [get_symbol_content, hload, hfind, hbytes]
  have hdec : utf8DecodeReplace
      ((bytes.drop s.byte_offset).take s.byte_length) = cs := by
    rw [← hvalid, decode_encode cs hscalar]
  refine ⟨by rw [hget, hdec], ?_, ?_⟩
  · rw [hvalid, List.length_take, List.length_drop]
    omega
  · rw [hvalid, ← hhash]

def c1WitSymbol : Symbol :=
  ⟨[105], [102], [], [], [], [], [], [], [], [], [], none, 0, 0, 0, 2, []⟩

def c1WitSave : CodeIndex × RepoStore :=
  save_index (fun _ => []) [] [] [[102]] [c1WitSymbol]
    [([102], [104, 105])] [] none [] [] ⟨none, []⟩

/-- Witness for C1 (amended) at a concrete two-byte ASCII slice. -/
theorem get_symbol_content_byte_exact_witness :
    get_symbol_content c1WitSave.2 c1WitSymbol.id = some [104, 105] ∧
    (utf8Encode [104, 105]).length = c1WitSymbol.byte_length ∧
    (fun _ => ([] : PyStr)) (utf8Encode [104, 105]) =
      c1WitSymbol.content_hash :=
  get_symbol_content_byte_exact (fun _ => []) [] [] [[102]] [c1WitSymbol]
    [([102], [104, 105])] [] none [] [] ⟨none, []⟩ c1WitSymbol
    [104, 105] [104, 105] (by decide) (by decide) (by decide) (by decide)
    rfl (by decide) (by decide)

/-! ### Incremental-save equivalence helpers -/

theorem mem_foldl_setAdd (x : PyStr) (l acc : List PyStr) :
    x ∈ l.foldl (fun acc f => if f ∈ acc then acc else acc ++ [f]) acc ↔
      x ∈ acc ∨ x ∈ l := by
  induction l generalizing acc with
  | nil => simp
  | cons g gs ih =>
    rw [List.foldl_cons]
    by_cases hg : g ∈ acc
    · rw [if_pos hg, ih]
      simp only [List.mem_cons]
      constructor
      · rintro (h | h)
        · exact Or.inl h
        · exact Or.inr (Or.inr h)
      · rintro (h | rfl | h)
        · exact Or.inl h
        · exact Or.inl hg
        · exact Or.inr h
    · rw [if_neg hg, ih]
      simp only [List.mem_append, List.mem_singleton, List.mem_cons]
      tauto

theorem filter_file_filter_rm (S : List Symbol) (rm : List PyStr)
    (f : PyStr) :
    (S.filter (fun t => !(rm.contains t.file))).filter
        (fun t => t.file == f) =
      if f ∈ rm then [] else S.filter (fun t => t.file == f) := by
  induction S with
  | nil =>
    simp only [List.filter_nil]
    split_ifs <;> rfl
  | cons t S ih =>
    by_cases hm : t.file ∈ rm
    · rw [List.filter_cons_of_neg (by simp [hm]), ih]
      by_cases hf : f ∈ rm
      · rw [if_pos hf, if_pos hf]
      · rw [if_neg hf, if_neg hf,
          List.filter_cons_of_neg
            (by simp only [beq_iff_eq]; intro he; exact hf (he ▸ hm))]
    · rw [List.filter_cons_of_pos (by simp [hm])]
      by_cases hf : t.file = f
      · have hfrm : f ∉ rm := fun h => hm (hf ▸ h)
        rw [List.filter_cons_of_pos (by simp [hf]), ih, if_neg hfrm,
          if_neg hfrm, List.filter_cons_of_pos (by simp [hf])]
      · rw [List.filter_cons_of_neg (by simp [hf]), ih]
        by_cases hfm : f ∈ rm
        · rw [if_pos hfm, if_pos hfm]
        · rw [if_neg hfm, if_neg hfm,
            List.filter_cons_of_neg (by simp [hf])]

/-- Claim C2: after a prior `save_index` of a file set, any edit batch
(changed, new, deleted files with their freshly parsed symbols and raw
contents) fed to `incremental_save` yields a manifest whose source-file
set, symbols grouped by file, and file-hash map all equal those of the
manifest `save_index` would produce directly from the final file set;
and `incremental_save` returns `None` when no prior manifest exists. -/
theorem incremental_save_equivalence (hash : List Nat → PyStr)
    (owner name : PyStr) (F0 : List PyStr) (S0 : List Symbol)
    (R0 : List (PyStr × PyStr)) (langs0 langs1 : List (PyStr × Nat))
    (gh0 gh1 t0 t1 t2 : PyStr) (store0 : RepoStore)
    (changed new_files deleted : List PyStr) (new_symbols : List Symbol)
    (raw1 : List (PyStr × PyStr)) (finalFiles : List PyStr)
    (finalSymbols : List Symbol) (finalRaw : List (PyStr × PyStr))
    (hS0files : ∀ t ∈ S0, t.file ∈ F0)
    (hchg : ∀ f ∈ changed, f ∈ F0 ∧ f ∉ deleted)
    (hdel : ∀ f ∈ deleted, f ∈ F0)
    (hnew : ∀ f ∈ new_files, f ∉ F0)
    (hraw1keys : ∀ f, f ∈ raw1.map Prod.fst ↔
      (f ∈ changed ∨ f ∈ new_files))
    (hraw1nd : (raw1.map Prod.fst).Nodup)
    (hnsym : ∀ t ∈ new_symbols, t.file ∈ changed ∨ t.file ∈ new_files)
    (hff : ∀ f, f ∈ finalFiles ↔
      ((f ∈ F0 ∧ f ∉ deleted) ∨ f ∈ new_files))
    (hfsym : ∀ f : PyStr, finalSymbols.filter (fun t => t.file == f) =
      if f ∈ changed ∨ f ∈ new_files then
        new_symbols.filter (fun t => t.file == f)
      else if f ∈ deleted then []
      else S0.filter (fun t => t.file == f))
    (hfraw : ∀ f, List.lookup f finalRaw =
      if f ∈ changed ∨ f ∈ new_files then List.lookup f raw1
      else if f ∈ deleted then none
      else List.lookup f R0) :
    (∀ st : RepoStore, st.manifest = none →
      incremental_save hash owner name changed new_files deleted
        new_symbols raw1 langs1 gh1 t1 st = none) ∧
    incremental_save hash owner name changed new_files deleted new_symbols
      raw1 langs1 gh1 t1
      (save_index hash owner name F0 S0 R0 langs0 none gh0 t0 store0).2 ≠
      none ∧
    (∀ updated st',
      incremental_save hash owner name changed new_files deleted
        new_symbols raw1 langs1 gh1 t1
        (save_index hash owner name F0 S0 R0 langs0 none gh0 t0
          store0).2 = some (updated, st') →
      (∀ f, f ∈ updated.source_files ↔
        f ∈ (save_index hash owner name finalFiles finalSymbols finalRaw
          langs1 none gh1 t2 ⟨none, []⟩).1.source_files) ∧
      (∀ f, updated.symbols.filter (fun t => t.file == f) =
        (save_index hash owner name finalFiles finalSymbols finalRaw
          langs1 none gh1 t2 ⟨none, []⟩).1.symbols.filter
          (fun t => t.file == f)) ∧
      (∀ f, List.lookup f updated.file_hashes =
        List.lookup f (save_index hash owner name finalFiles finalSymbols
          finalRaw langs1 none gh1 t2 ⟨none, []⟩).1.file_hashes)) := by
  have hver : (save_index hash owner name F0 S0 R0 langs0 none gh0 t0
      store0).1.index_version = INDEX_VERSION := rfl
  have hman : (save_index hash owner name F0 S0 R0 langs0 none gh0 t0
      store0).2.manifest = some (indexToStored (save_index hash owner name
        F0 S0 R0 langs0 none gh0 t0 store0).1) := rfl
  have hload : load_index (save_index hash owner name F0 S0 R0 langs0 none
      gh0 t0 store0).2.manifest = some (save_index hash owner name F0 S0
        R0 langs0 none gh0 t0 store0).1 := by
    rw [hman]
    exact load_indexToStored _ (le_of_eq hver)
  have pSyms : (save_index hash owner name F0 S0 R0 langs0 none gh0 t0
      store0).1.symbols = S0 := rfl
  have pFiles : (save_index hash owner name F0 S0 R0 langs0 none gh0 t0
      store0).1.source_files = F0 := rfl
  have pHashes : (save_index hash owner name F0 S0 R0 langs0 none gh0 t0
      store0).1.file_hashes =
      R0.map (fun p => (p.1, fileHash hash p.2)) := rfl
  have dFiles : (save_index hash owner name finalFiles finalSymbols
      finalRaw langs1 none gh1 t2 ⟨none, []⟩).1.source_files =
      finalFiles := rfl
  have dSyms : (save_index hash owner name finalFiles finalSymbols
      finalRaw langs1 none gh1 t2 ⟨none, []⟩).1.symbols =
      finalSymbols := rfl
  have dHashes : (save_index hash owner name finalFiles finalSymbols
      finalRaw langs1 none gh1 t2 ⟨none, []⟩).1.file_hashes =
      finalRaw.map (fun p => (p.1, fileHash hash p.2)) := rfl
  refine ⟨?_, ?_, ?_⟩
  · intro st hst
    simp only [incremental_save, hst, load_index]
  · intro h
    simp only [incremental_save, hload] at h
    exact Option.noConfusion h
  · intro updated st' hI
    simp only [incremental_save, hload, pSyms, pFiles, pHashes,
      Option.some.injEq, Prod.mk.injEq] at hI
    obtain ⟨hu, _⟩ := hI
    subst hu
    refine ⟨?_, ?_, ?_⟩
    · intro f
      rw [dFiles]
      simp only []
      rw [mem_sortPy, mem_foldl_setAdd, mem_foldl_setAdd, List.mem_filter,
        List.mem_dedup, hff f]
      have hb : ((!(deleted.contains f)) = true) ↔ f ∉ deleted := by simp
      rw [hb]
      have hc := hchg f
      constructor
      · rintro ((⟨h1, h2⟩ | h) | h)
        · exact Or.inl ⟨h1, h2⟩
        · exact Or.inr h
        · exact Or.inl (hc h)
      · rintro (⟨h1, h2⟩ | h)
        · exact Or.inl (Or.inl ⟨h1, h2⟩)
        · exact Or.inl (Or.inr h)
    · intro f
      rw [dSyms, hfsym f]
      simp only []
      rw [List.filter_append, filter_file_filter_rm]
      by_cases h1 : f ∈ changed ∨ f ∈ new_files
      · rw [if_pos h1]
        rcases h1 with h1 | h1
        · rw [if_pos (List.mem_append.mpr (Or.inr h1)), List.nil_append]
        · have hnf : f ∉ F0 := hnew f h1
          have hnd : f ∉ deleted := fun hd => hnf (hdel f hd)
          have hnc : f ∉ changed := fun hcx => hnf ((hchg f hcx).1)
          rw [if_neg (by
            rw [List.mem_append]
            rintro (h | h)
            · exact hnd h
            · exact hnc h)]
          have hS0nil : S0.filter (fun t => t.file == f) = [] := by
            rw [List.filter_eq_nil_iff]
            intro t ht
            simp only [beq_iff_eq]
            intro he
            exact hnf (he ▸ hS0files t ht)
          rw [hS0nil, List.nil_append]
      · rw [if_neg h1]
        push_neg at h1
        have hnsnil : new_symbols.filter (fun t => t.file == f) = [] := by
          rw [List.filter_eq_nil_iff]
          intro t ht
          simp only [beq_iff_eq]
          intro he
          rcases hnsym t ht with hx | hx
          · exact h1.1 (he ▸ hx)
          · exact h1.2 (he ▸ hx)
        by_cases h2 : f ∈ deleted
        · rw [if_pos h2, if_pos (List.mem_append.mpr (Or.inl h2)), hnsnil,
            List.nil_append]
        · rw [if_neg h2, if_neg (by
            rw [List.mem_append]
            rintro (h | h)
            · exact h2 h
            · exact h1.1 h), hnsnil, List.append_nil]
    · intro f
      rw [dHashes, lookup_map_snd, hfraw f]
      simp only []
      rw [lookup_foldl_dinsert (fileHash hash) raw1 _ f hraw1nd]
      by_cases h1 : f ∈ changed ∨ f ∈ new_files
      · have hmem : f ∈ raw1.map Prod.fst := (hraw1keys f).mpr h1
        rcases hl : List.lookup f raw1 with _ | v
        · exact absurd hmem ((lookup_eq_none_iff f raw1).mp hl)
        · rw [if_pos h1]
          rfl
      · have hl : List.lookup f raw1 = none :=
          (lookup_eq_none_iff f raw1).mpr
            (fun hmem => h1 ((hraw1keys f).mp hmem))
        rw [if_neg h1, hl]
        show List.lookup f ((R0.map (fun p => (p.1, fileHash hash
          p.2))).filter (fun p => !(deleted.contains p.1))) = _
        rw [lookup_filter_key, lookup_map_snd]
        by_cases h2 : f ∈ deleted
        · rw [if_pos h2, if_pos h2]
          rfl
        · rw [if_neg h2, if_neg h2]

/-- Witness for C2 at a concrete one-file store whose only file is then
deleted: the incrementally updated manifest and the direct save agree on
membership of that file. -/
theorem incremental_save_equivalence_witness :
    [97] ∈ (⟨[47], [], [], [], [], [], [], 2, [], []⟩ :
        CodeIndex).source_files ↔
    [97] ∈ (save_index (fun _ => []) [] [] [] [] [] [] none [] []
        ⟨none, []⟩).1.source_files :=
  ((incremental_save_equivalence (fun _ => []) [] [] [[97]] []
      [([97], [120])] [] [] [] [] [] [] [] ⟨none, []⟩
      [] [] [[97]] [] [] [] [] []
      (by decide) (by decide) (by decide) (by decide)
      (by intro f; simp)
      (by decide) (by decide)
      (by intro f; simp)
      (by
        intro f
        simp only [List.filter_nil, List.not_mem_nil, or_self, if_false]
        split_ifs <;> rfl)
      (by
        intro f
        rw [if_neg (by simp)]
        by_cases h : f ∈ [[97]]
        · rw [if_pos h]
          rfl
        · rw [if_neg h, lookup_cons,
            if_neg (by simpa using h)])).2.2
    ⟨[47], [], [], [], [], [], [], 2, [], []⟩
    ⟨some (indexToStored ⟨[47], [], [], [], [], [], [], 2, [], []⟩), []⟩
    (by decide)).1 [97]

end JCodemunch
